import Mathlib

set_option maxRecDepth 8000

/-!
# Verification of the fastrpc server core

A shallow embedding of the fastrpc repository's wire framing, codec,
registry, tracing injection and per-request dispatch, with theorems
settling the specification's claims about them.

Byte strings are modelled as `List Nat` (each element a byte value
0..255); streams are modelled as the list of chunks the underlying
reader will deliver, end-of-stream being the exhaustion of that list.
-/

/-! ## Constants (src/rpc/stream.ts lines 8, 11) -/

/-- Maximum buffer size to prevent memory overflow (16MB). -/
def MAX_BUFFER_SIZE : Nat := 16 * 1024 * 1024

/-- Maximum message size to prevent malicious large messages (10MB). -/
def MAX_MESSAGE_SIZE : Nat := 10 * 1024 * 1024

/-! ## Big-endian byte helpers -/

/-- `beBytes w n` is the `w`-byte big-endian encoding of `n` (mod `256^w`),
the behaviour of `DataView.setUint32` for `w = 4`. -/
def beBytes : Nat → Nat → List Nat
  | 0, _ => []
  | w + 1, n => beBytes w (n / 256) ++ [n % 256]

/-- Value of a big-endian byte string. -/
def beVal (bs : List Nat) : Nat := bs.foldl (fun acc b => acc * 256 + b) 0

theorem beBytes_length (w n : Nat) : (beBytes w n).length = w := by
  induction w generalizing n with
  | zero => rfl
  | succ w ih => simp [beBytes, ih]

theorem beVal_append_singleton (bs : List Nat) (b : Nat) :
    beVal (bs ++ [b]) = beVal bs * 256 + b := by
  simp [beVal, List.foldl_append]

theorem beVal_beBytes (w n : Nat) : beVal (beBytes w n) = n % 256 ^ w := by
  induction w generalizing n with
  | zero => simp [beBytes, beVal, Nat.mod_one]
  | succ w ih =>
    rw [beBytes, beVal_append_singleton, ih]
    rw [pow_succ, Nat.mul_comm (256 ^ w) 256, Nat.mod_mul]
    ring

theorem beVal_beBytes_lt (w n : Nat) (h : n < 256 ^ w) :
    beVal (beBytes w n) = n := by
  rw [beVal_beBytes, Nat.mod_eq_of_lt h]

/-! ## Framer (src/rpc/framedMessage.ts) -/

/-- `createFrameMessage` (src/rpc/framedMessage.ts lines 60-65): frame a
payload with a 4-byte big-endian length header; `setUint32` wraps the
length modulo `2^32`, which `beBytes 4` reproduces. -/
def createFrameMessage (payload : List Nat) : List Nat :=
  beBytes 4 payload.length ++ payload

/-- `DataView.getUint32(0)` big-endian on the first four buffer bytes
(src/rpc/framedMessage.ts line 17); only invoked when the buffer holds
at least 4 bytes. -/
def getUint32BE (bs : List Nat) : Nat := beVal (bs.take 4)

/-- `FrameReader.next` (src/rpc/framedMessage.ts lines 6-28).  The reader
state is its buffer plus the list of chunks the stream will still
deliver; the result is `(message?, final buffer, remaining chunks)`,
where a `none` message models the `null` returned at end-of-stream.
This reader performs no length or buffer-size validation. -/
def frameReaderNext (buffer : List Nat) (chunks : List (List Nat)) :
    Option (List Nat) × List Nat × List (List Nat) :=
  if buffer.length < 4 then
    match chunks with
    | [] => (none, buffer, [])
    | c :: cs => frameReaderNext (buffer ++ c) cs
  else
    if 4 + getUint32BE buffer ≤ buffer.length then
      (some ((buffer.drop 4).take (getUint32BE buffer)),
        buffer.drop (4 + getUint32BE buffer), chunks)
    else
      match chunks with
      | [] => (none, buffer, [])
      | c :: cs => frameReaderNext (buffer ++ c) cs
termination_by structural chunks

/-! ## StreamReader (src/rpc/stream.ts) -/

instance {e a : Type} [DecidableEq e] [DecidableEq a] :
    DecidableEq (Except e a) :=
  fun x y =>
    match x, y with
    | .ok u, .ok v =>
      if h : u = v then .isTrue (h ▸ rfl)
      else .isFalse (fun he => h (Except.ok.inj he))
    | .error u, .error v =>
      if h : u = v then .isTrue (h ▸ rfl)
      else .isFalse (fun he => h (Except.error.inj he))
    | .ok _, .error _ => .isFalse (fun he => Except.noConfusion he)
    | .error _, .ok _ => .isFalse (fun he => Except.noConfusion he)

/-- The three failure modes of `StreamReader.next`. -/
inductive StreamErr where
  | bufferOverflow
  | invalidLength
  | incompleteMessage
deriving DecidableEq, Repr

/-- `readUint32BigEndian` (src/rpc/stream.ts lines 68-75): shift-and-or
of the first four bytes with a final `>>> 0`, i.e. reduction mod `2^32`.
Only invoked when the buffer holds at least 4 bytes. -/
def readUint32BigEndian : List Nat → Nat
  | b0 :: b1 :: b2 :: b3 :: _ =>
    (b0 * 16777216 + b1 * 65536 + b2 * 256 + b3) % 4294967296
  | _ => 0

/-- `StreamReader.next` (src/rpc/stream.ts lines 15-62), same state
convention as `frameReaderNext`.  Checks, in source order: buffer
overflow; header availability (end-of-stream here returns `null` even
with 1-3 buffered bytes); the 10 MiB length bound; payload
availability (end-of-stream here with a non-empty buffer throws the
incomplete-message error). -/
def streamReaderNext (buffer : List Nat) (chunks : List (List Nat)) :
    Except StreamErr (Option (List Nat) × List Nat × List (List Nat)) :=
  if buffer.length > MAX_BUFFER_SIZE then
    .error .bufferOverflow
  else if buffer.length < 4 then
    match chunks with
    | [] => .ok (none, buffer, [])
    | c :: cs => streamReaderNext (buffer ++ c) cs
  else
    if readUint32BigEndian buffer > MAX_MESSAGE_SIZE then
      .error .invalidLength
    else if 4 + readUint32BigEndian buffer ≤ buffer.length then
      .ok (some ((buffer.drop 4).take (readUint32BigEndian buffer)),
        buffer.drop (4 + readUint32BigEndian buffer), chunks)
    else
      match chunks with
      | [] =>
        if buffer.length > 0 then .error .incompleteMessage
        else .ok (none, buffer, [])
      | c :: cs => streamReaderNext (buffer ++ c) cs
termination_by structural chunks

/-! ## Frame-layer lemmas -/

theorem frameReaderNext_frame (P : List Nat) (h : P.length < 2 ^ 32) :
    frameReaderNext [] [createFrameMessage P] = (some P, [], []) := by
  have hA : (beBytes 4 P.length).length = 4 := beBytes_length 4 P.length
  have hlen : (createFrameMessage P).length = 4 + P.length := by
    simp [createFrameMessage, hA]
  have htake : (createFrameMessage P).take 4 = beBytes 4 P.length := by
    unfold createFrameMessage
    have t := List.take_left (beBytes 4 P.length) P
    rw [hA] at t
    exact t
  have hval : getUint32BE (createFrameMessage P) = P.length := by
    rw [getUint32BE, htake]
    exact beVal_beBytes_lt 4 P.length
      (by have h4 : (256 : Nat) ^ 4 = 2 ^ 32 := by norm_num
          omega)
  have hdrop : (createFrameMessage P).drop 4 = P := by
    unfold createFrameMessage
    have t := List.drop_left (beBytes 4 P.length) P
    rw [hA] at t
    exact t
  have hdrop2 : (createFrameMessage P).drop (4 + P.length) = [] :=
    List.drop_eq_nil_of_le (by omega)
  rw [frameReaderNext]
  rw [if_pos (by simp)]
  show frameReaderNext ([] ++ createFrameMessage P) [] = (some P, [], [])
  rw [List.nil_append, frameReaderNext]
  rw [if_neg (by omega), hval, if_pos (by omega), hdrop, hdrop2, List.take_length]

/-! ## MessagePack values

Modelled from the spec: the repository's codec delegates to the external
`@std/msgpack` library (`encode` / `decode` in src/rpc/serializer.ts),
which the spec describes as "a self-describing, length-delimited binary
encoding equivalent to MessagePack" of scalars, byte strings, ordered
sequences and string-keyed mappings.  `Value` is that payload universe;
strings are carried as their UTF-8 bytes. -/

inductive Value where
  | nil
  | bool (b : Bool)
  | int (n : Int)
  | str (s : List Nat)
  | bin (b : List Nat)
  | arr (elems : List Value)
  | map (entries : List (List Nat × Value))

/-- MessagePack header for a string of `len` bytes. -/
def strHeader (len : Nat) : Option (List Nat) :=
  if len < 32 then some [0xa0 + len]
  else if len < 256 then some [0xd9, len]
  else if len < 65536 then some (0xda :: beBytes 2 len)
  else if len < 4294967296 then some (0xdb :: beBytes 4 len)
  else none

/-- MessagePack header for a binary blob of `len` bytes. -/
def binHeader (len : Nat) : Option (List Nat) :=
  if len < 256 then some [0xc4, len]
  else if len < 65536 then some (0xc5 :: beBytes 2 len)
  else if len < 4294967296 then some (0xc6 :: beBytes 4 len)
  else none

/-- MessagePack header for an array of `len` elements. -/
def arrHeader (len : Nat) : Option (List Nat) :=
  if len < 16 then some [0x90 + len]
  else if len < 65536 then some (0xdc :: beBytes 2 len)
  else if len < 4294967296 then some (0xdd :: beBytes 4 len)
  else none

/-- MessagePack header for a map of `len` entries. -/
def mapHeader (len : Nat) : Option (List Nat) :=
  if len < 16 then some [0x80 + len]
  else if len < 65536 then some (0xde :: beBytes 2 len)
  else if len < 4294967296 then some (0xdf :: beBytes 4 len)
  else none

/-- MessagePack encoding of an integer, choosing the narrowest format
(positive/negative fixint, uintN, intN); integers outside the 64-bit
ranges are not encodable. -/
def encodeInt (n : Int) : Option (List Nat) :=
  if 0 ≤ n then
    if n < 0x80 then some [n.toNat]
    else if n < 0x100 then some [0xcc, n.toNat]
    else if n < 0x10000 then some (0xcd :: beBytes 2 n.toNat)
    else if n < 0x100000000 then some (0xce :: beBytes 4 n.toNat)
    else if n < 0x10000000000000000 then some (0xcf :: beBytes 8 n.toNat)
    else none
  else
    if -32 ≤ n then some [(n + 256).toNat]
    else if -128 ≤ n then some [0xd0, (n + 256).toNat]
    else if -32768 ≤ n then some (0xd1 :: beBytes 2 (n + 65536).toNat)
    else if -2147483648 ≤ n then some (0xd2 :: beBytes 4 (n + 4294967296).toNat)
    else if -9223372036854775808 ≤ n then
      some (0xd3 :: beBytes 8 (n + 18446744073709551616).toNat)
    else none

mutual

/-- MessagePack encoding of a value; `none` when some component is out
of the format's range. -/
def encodeValue : Value → Option (List Nat)
  | .nil => some [0xc0]
  | .bool false => some [0xc2]
  | .bool true => some [0xc3]
  | .int n => encodeInt n
  | .str s =>
    match strHeader s.length with
    | some h => some (h ++ s)
    | none => none
  | .bin b =>
    match binHeader b.length with
    | some h => some (h ++ b)
    | none => none
  | .arr vs =>
    match arrHeader vs.length with
    | none => none
    | some h =>
      match encodeList vs with
      | none => none
      | some body => some (h ++ body)
  | .map kvs =>
    match mapHeader kvs.length with
    | none => none
    | some h =>
      match encodeEntries kvs with
      | none => none
      | some body => some (h ++ body)

/-- Concatenated encodings of a list of values. -/
def encodeList : List Value → Option (List Nat)
  | [] => some []
  | v :: vs =>
    match encodeValue v with
    | none => none
    | some bv =>
      match encodeList vs with
      | none => none
      | some rest => some (bv ++ rest)

/-- Concatenated encodings of map entries: each string key (encoded as a
MessagePack string) followed by its value. -/
def encodeEntries : List (List Nat × Value) → Option (List Nat)
  | [] => some []
  | (k, v) :: kvs =>
    match strHeader k.length with
    | none => none
    | some kh =>
      match encodeValue v with
      | none => none
      | some bv =>
        match encodeEntries kvs with
        | none => none
        | some rest => some (kh ++ k ++ bv ++ rest)

end

/-- Split off the first `n` bytes, failing when fewer are available. -/
def takeBytes (n : Nat) (bs : List Nat) : Option (List Nat × List Nat) :=
  if n ≤ bs.length then some (bs.take n, bs.drop n) else none

/-- Read a `w`-byte big-endian unsigned integer. -/
def readBE (w : Nat) (bs : List Nat) : Option (Nat × List Nat) :=
  match takeBytes w bs with
  | some (chunk, rest) => some (beVal chunk, rest)
  | none => none

/-- Two's-complement reinterpretation of a `w`-byte unsigned value. -/
def asSigned (w : Nat) (n : Nat) : Int :=
  if n < 256 ^ w / 2 then (n : Int) else (n : Int) - (256 ^ w : Nat)

/-- Decode a `w`-byte-length-prefixed binary blob. -/
def decodeBin (w : Nat) (bs : List Nat) : Option (Value × List Nat) :=
  match readBE w bs with
  | some (len, r) =>
    match takeBytes len r with
    | some (p, rest) => some (.bin p, rest)
    | none => none
  | none => none

/-- Decode a `w`-byte unsigned integer payload. -/
def decodeUint (w : Nat) (bs : List Nat) : Option (Value × List Nat) :=
  match readBE w bs with
  | some (n, rest) => some (.int n, rest)
  | none => none

/-- Decode a `w`-byte two's-complement integer payload. -/
def decodeSint (w : Nat) (bs : List Nat) : Option (Value × List Nat) :=
  match readBE w bs with
  | some (n, rest) => some (.int (asSigned w n), rest)
  | none => none

/-- Decode a `w`-byte-length-prefixed string. -/
def decodeStr (w : Nat) (bs : List Nat) : Option (Value × List Nat) :=
  match readBE w bs with
  | some (len, r) =>
    match takeBytes len r with
    | some (s, rest) => some (.str s, rest)
    | none => none
  | none => none

/-- Decode exactly `n` consecutive values with the value decoder `dec`. -/
def decodeListCore (dec : List Nat → Option (Value × List Nat)) :
    Nat → List Nat → Option (List Value × List Nat)
  | 0, bs => some ([], bs)
  | n + 1, bs =>
    match dec bs with
    | none => none
    | some (v, r) =>
      match decodeListCore dec n r with
      | none => none
      | some (vs, rest) => some (v :: vs, rest)

/-- Decode exactly `n` consecutive map entries with the value decoder
`dec`; keys must decode to strings. -/
def decodeEntriesCore (dec : List Nat → Option (Value × List Nat)) :
    Nat → List Nat → Option (List (List Nat × Value) × List Nat)
  | 0, bs => some ([], bs)
  | n + 1, bs =>
    match dec bs with
    | none => none
    | some (kv, r) =>
      match kv with
      | .str k =>
        match dec r with
        | none => none
        | some (v, r2) =>
          match decodeEntriesCore dec n r2 with
          | none => none
          | some (kvs, rest) => some ((k, v) :: kvs, rest)
      | _ => none

/-- One level of MessagePack decoding: dispatch on the tag byte, using
`dec` to decode nested values.  Tags the framework's payloads never
produce (floats, ext types) are out of the model's scope and fail. -/
def decodeBody (dec : List Nat → Option (Value × List Nat)) :
    List Nat → Option (Value × List Nat)
  | [] => none
  | b :: bs =>
    if b < 0x80 then some (.int b, bs)
    else if b < 0x90 then
      match decodeEntriesCore dec (b - 0x80) bs with
      | some (kvs, rest) => some (.map kvs, rest)
      | none => none
    else if b < 0xa0 then
      match decodeListCore dec (b - 0x90) bs with
      | some (vs, rest) => some (.arr vs, rest)
      | none => none
    else if b < 0xc0 then
      match takeBytes (b - 0xa0) bs with
      | some (s, rest) => some (.str s, rest)
      | none => none
    else if b = 0xc0 then some (.nil, bs)
    else if b = 0xc2 then some (.bool false, bs)
    else if b = 0xc3 then some (.bool true, bs)
    else if b = 0xc4 then decodeBin 1 bs
    else if b = 0xc5 then decodeBin 2 bs
    else if b = 0xc6 then decodeBin 4 bs
    else if b = 0xcc then decodeUint 1 bs
    else if b = 0xcd then decodeUint 2 bs
    else if b = 0xce then decodeUint 4 bs
    else if b = 0xcf then decodeUint 8 bs
    else if b = 0xd0 then decodeSint 1 bs
    else if b = 0xd1 then decodeSint 2 bs
    else if b = 0xd2 then decodeSint 4 bs
    else if b = 0xd3 then decodeSint 8 bs
    else if b = 0xd9 then decodeStr 1 bs
    else if b = 0xda then decodeStr 2 bs
    else if b = 0xdb then decodeStr 4 bs
    else if b = 0xdc then
      match readBE 2 bs with
      | some (n, r) =>
        match decodeListCore dec n r with
        | some (vs, rest) => some (.arr vs, rest)
        | none => none
      | none => none
    else if b = 0xdd then
      match readBE 4 bs with
      | some (n, r) =>
        match decodeListCore dec n r with
        | some (vs, rest) => some (.arr vs, rest)
        | none => none
      | none => none
    else if b = 0xde then
      match readBE 2 bs with
      | some (n, r) =>
        match decodeEntriesCore dec n r with
        | some (kvs, rest) => some (.map kvs, rest)
        | none => none
      | none => none
    else if b = 0xdf then
      match readBE 4 bs with
      | some (n, r) =>
        match decodeEntriesCore dec n r with
        | some (kvs, rest) => some (.map kvs, rest)
        | none => none
      | none => none
    else if 0xe0 ≤ b ∧ b < 0x100 then some (.int ((b : Int) - 256), bs)
    else none

/-- MessagePack decoding of one value off the front of a byte string,
returning the value and the unconsumed tail.  `fuel` bounds the nesting
depth (any bound at least the input length suffices, since every
nesting level consumes at least one byte). -/
def decodeValue (fuel : Nat) : List Nat → Option (Value × List Nat) :=
  Nat.rec (motive := fun _ => List Nat → Option (Value × List Nat))
    (fun _ => none) (fun _ prev => decodeBody prev) fuel

theorem decodeValue_zero (bs : List Nat) : decodeValue 0 bs = none := rfl

theorem decodeValue_succ (fuel : Nat) :
    decodeValue (fuel + 1) = decodeBody (decodeValue fuel) := rfl

/-! ## Equality and induction infrastructure for `Value` -/

mutual

/-- Boolean (structural) equality of values. -/
def Value.beq : Value → Value → Bool
  | .nil, .nil => true
  | .bool a, .bool b => a == b
  | .int a, .int b => a == b
  | .str a, .str b => a == b
  | .bin a, .bin b => a == b
  | .arr a, .arr b => beqList a b
  | .map a, .map b => beqEntries a b
  | _, _ => false

/-- Elementwise `Value.beq` on lists. -/
def beqList : List Value → List Value → Bool
  | [], [] => true
  | a :: as, b :: bs => Value.beq a b && beqList as bs
  | _, _ => false

/-- Elementwise equality on map entries. -/
def beqEntries : List (List Nat × Value) → List (List Nat × Value) → Bool
  | [], [] => true
  | (k1, v1) :: as, (k2, v2) :: bs =>
    k1 == k2 && Value.beq v1 v2 && beqEntries as bs
  | _, _ => false

end

theorem Value.one_le_sizeOf (v : Value) : 1 ≤ sizeOf v := by
  cases v <;> simp_arith

theorem Value.strong_ind {P : Value → Prop}
    (H : ∀ v, (∀ w : Value, sizeOf w < sizeOf v → P w) → P v) : ∀ v, P v := by
  have key : ∀ n, ∀ w : Value, sizeOf w ≤ n → P w := by
    intro n
    induction n with
    | zero =>
      intro w hw
      have := Value.one_le_sizeOf w
      omega
    | succ n ihn =>
      intro w hw
      exact H w (fun u hu => ihn u (by omega))
  exact fun v => key (sizeOf v) v (le_refl _)

theorem sizeOf_mem_arr {v : Value} {vs : List Value} (h : v ∈ vs) :
    sizeOf v < sizeOf (Value.arr vs) := by
  have h1 := List.sizeOf_lt_of_mem h
  have h2 : sizeOf (Value.arr vs) = 1 + sizeOf vs := by simp
  omega

theorem sizeOf_mem_map {k : List Nat} {v : Value}
    {kvs : List (List Nat × Value)} (h : (k, v) ∈ kvs) :
    sizeOf v < sizeOf (Value.map kvs) := by
  have h1 := List.sizeOf_lt_of_mem h
  have h2 : sizeOf ((k, v) : List Nat × Value) = 1 + sizeOf k + sizeOf v := by
    simp
  have h3 : sizeOf (Value.map kvs) = 1 + sizeOf kvs := by simp
  omega

theorem beqList_iff (as : List Value)
    (IH : ∀ v ∈ as, ∀ b, Value.beq v b = true ↔ v = b) :
    ∀ bs, beqList as bs = true ↔ as = bs := by
  induction as with
  | nil => intro bs; cases bs <;> simp [beqList]
  | cons a as ih =>
    intro bs
    cases bs with
    | nil => simp [beqList]
    | cons b bs =>
      have ha := IH a (List.mem_cons_self a as) b
      have hrest := ih (fun v hv => IH v (List.mem_cons_of_mem a hv)) bs
      simp [beqList, ha, hrest, Bool.and_eq_true]

theorem beqEntries_iff (as : List (List Nat × Value))
    (IH : ∀ k v, (k, v) ∈ as → ∀ b, Value.beq v b = true ↔ v = b) :
    ∀ bs, beqEntries as bs = true ↔ as = bs := by
  induction as with
  | nil => intro bs; cases bs <;> simp [beqEntries]
  | cons a as ih =>
    intro bs
    obtain ⟨k1, v1⟩ := a
    cases bs with
    | nil => simp [beqEntries]
    | cons b bs =>
      obtain ⟨k2, v2⟩ := b
      have ha := IH k1 v1 (List.mem_cons_self _ as) v2
      have hrest := ih (fun k v hv => IH k v (List.mem_cons_of_mem _ hv)) bs
      simp [beqEntries, ha, hrest, Bool.and_eq_true, and_assoc]

theorem Value.beq_eq_true_iff : ∀ a b : Value, Value.beq a b = true ↔ a = b := by
  apply Value.strong_ind (P := fun a => ∀ b, Value.beq a b = true ↔ a = b)
  intro a IH b
  cases a <;> cases b
  all_goals try (simp [Value.beq]; done)
  case arr.arr as bs =>
    simpa [Value.beq] using
      beqList_iff as (fun v hv => IH v (sizeOf_mem_arr hv)) bs
  case map.map as bs =>
    simpa [Value.beq] using
      beqEntries_iff as (fun k v hv b2 => IH v (sizeOf_mem_map hv) b2) bs

instance : DecidableEq Value :=
  fun a b => decidable_of_iff (Value.beq a b = true) (Value.beq_eq_true_iff a b)

/-! ## Codec roundtrip: helper lemmas -/

mutual

/-- Fuel needed by `decodeValue` to decode a value: one more than the
deepest nesting below it. -/
def cost : Value → Nat
  | .arr vs => costList vs + 1
  | .map kvs => costEntries kvs + 1
  | _ => 1

/-- Fuel needed by the elements of a list. -/
def costList : List Value → Nat
  | [] => 0
  | v :: vs => max (cost v) (costList vs)

/-- Fuel needed by the entries of a map; the key of an entry is a
string and needs one unit of fuel itself. -/
def costEntries : List (List Nat × Value) → Nat
  | [] => 0
  | (_, v) :: kvs => max 1 (max (cost v) (costEntries kvs))

end

theorem cost_pos (v : Value) : 1 ≤ cost v := by
  cases v <;> simp [cost]

theorem takeBytes_append (xs rest : List Nat) :
    takeBytes xs.length (xs ++ rest) = some (xs, rest) := by
  unfold takeBytes
  rw [if_pos (by simp)]
  rw [List.take_left, List.drop_left]

theorem takeBytes_append_of_eq {n : Nat} (xs rest : List Nat)
    (h : xs.length = n) : takeBytes n (xs ++ rest) = some (xs, rest) := by
  subst h
  exact takeBytes_append xs rest

theorem beVal_singleton (b : Nat) : beVal [b] = b := by
  simp [beVal]

theorem readBE_beBytes (w n : Nat) (rest : List Nat) (h : n < 256 ^ w) :
    readBE w (beBytes w n ++ rest) = some (n, rest) := by
  unfold readBE
  rw [takeBytes_append_of_eq (beBytes w n) rest (beBytes_length w n)]
  simp [beVal_beBytes_lt w n h]

theorem readBE_one (b : Nat) (rest : List Nat) :
    readBE 1 (b :: rest) = some (b, rest) := by
  unfold readBE
  have h : takeBytes 1 (b :: rest) = some ([b], rest) :=
    takeBytes_append_of_eq [b] rest rfl
  rw [h]
  simp [beVal_singleton]

theorem decodeUint_readBE {w : Nat} {bs rest : List Nat} {m : Nat}
    (h : readBE w bs = some (m, rest)) :
    decodeUint w bs = some (.int m, rest) := by
  unfold decodeUint
  rw [h]

theorem decodeSint_readBE {w : Nat} {bs rest : List Nat} {m : Nat}
    (h : readBE w bs = some (m, rest)) :
    decodeSint w bs = some (.int (asSigned w m), rest) := by
  unfold decodeSint
  rw [h]

theorem asSigned_high (w m : Nat) (h : 256 ^ w / 2 ≤ m) :
    asSigned w m = (m : Int) - ((256 ^ w : Nat) : Int) := by
  unfold asSigned
  rw [if_neg (by omega)]

theorem decodeStr_readBE {w : Nat} {bs r rest : List Nat} {len : Nat}
    (h : readBE w bs = some (len, r)) (s : List Nat)
    (hs : takeBytes len r = some (s, rest)) :
    decodeStr w bs = some (.str s, rest) := by
  unfold decodeStr
  rw [h]
  show (match takeBytes len r with
    | some (s, rest) => some (Value.str s, rest)
    | none => none) = some (Value.str s, rest)
  rw [hs]

theorem decodeBin_readBE {w : Nat} {bs r rest : List Nat} {len : Nat}
    (h : readBE w bs = some (len, r)) (p : List Nat)
    (hp : takeBytes len r = some (p, rest)) :
    decodeBin w bs = some (.bin p, rest) := by
  unfold decodeBin
  rw [h]
  show (match takeBytes len r with
    | some (p, rest) => some (Value.bin p, rest)
    | none => none) = some (Value.bin p, rest)
  rw [hp]

theorem decode_encodeInt (n : Int) (bs rest : List Nat) (fuel : Nat)
    (henc : encodeInt n = some bs) :
    decodeValue (fuel + 1) (bs ++ rest) = some (.int n, rest) := by
  unfold encodeInt at henc
  by_cases h0 : 0 ≤ n
  · rw [if_pos h0] at henc
    by_cases h1 : n < 0x80
    · rw [if_pos h1] at henc
      cases henc
      simp only [List.cons_append, List.nil_append]
      rw [decodeValue_succ]
      simp only [decodeBody]
      rw [if_pos (by omega)]
      rw [Int.toNat_of_nonneg h0]
    · rw [if_neg h1] at henc
      by_cases h2 : n < 0x100
      · rw [if_pos h2] at henc
        cases henc
        simp only [List.cons_append, List.nil_append]
        rw [decodeValue_succ]
        simp only [decodeBody]
        repeat rw [if_neg (by omega)]
        rw [if_pos (by trivial)]
        rw [decodeUint_readBE (readBE_one n.toNat rest)]
        rw [Int.toNat_of_nonneg h0]
      · rw [if_neg h2] at henc
        by_cases h3 : n < 0x10000
        · rw [if_pos h3] at henc
          cases henc
          simp only [List.cons_append]
          rw [decodeValue_succ]
          simp only [decodeBody]
          repeat rw [if_neg (by omega)]
          rw [if_pos (by trivial)]
          rw [decodeUint_readBE (readBE_beBytes 2 n.toNat rest (by omega))]
          rw [Int.toNat_of_nonneg h0]
        · rw [if_neg h3] at henc
          by_cases h4 : n < 0x100000000
          · rw [if_pos h4] at henc
            cases henc
            simp only [List.cons_append]
            rw [decodeValue_succ]
            simp only [decodeBody]
            repeat rw [if_neg (by omega)]
            rw [if_pos (by trivial)]
            rw [decodeUint_readBE (readBE_beBytes 4 n.toNat rest (by omega))]
            rw [Int.toNat_of_nonneg h0]
          · rw [if_neg h4] at henc
            by_cases h5 : n < 0x10000000000000000
            · rw [if_pos h5] at henc
              cases henc
              simp only [List.cons_append]
              rw [decodeValue_succ]
              simp only [decodeBody]
              repeat rw [if_neg (by omega)]
              rw [if_pos (by trivial)]
              rw [decodeUint_readBE (readBE_beBytes 8 n.toNat rest (by omega))]
              rw [Int.toNat_of_nonneg h0]
            · rw [if_neg h5] at henc
              cases henc
  · rw [if_neg h0] at henc
    by_cases h1 : -32 ≤ n
    · rw [if_pos h1] at henc
      cases henc
      simp only [List.cons_append, List.nil_append]
      rw [decodeValue_succ]
      simp only [decodeBody]
      repeat rw [if_neg (by omega)]
      rw [if_pos (by omega)]
      have he : (((n + 256).toNat : Nat) : Int) - 256 = n := by omega
      rw [he]
    · rw [if_neg h1] at henc
      by_cases h2 : -128 ≤ n
      · rw [if_pos h2] at henc
        cases henc
        simp only [List.cons_append, List.nil_append]
        rw [decodeValue_succ]
        simp only [decodeBody]
        repeat rw [if_neg (by omega)]
        rw [if_pos (by trivial)]
        rw [decodeSint_readBE (readBE_one (n + 256).toNat rest)]
        rw [asSigned_high 1 (n + 256).toNat (by norm_num; omega)]
        have he : (((n + 256).toNat : Nat) : Int) - ((256 ^ 1 : Nat) : Int)
            = n := by push_cast; omega
        rw [he]
      · rw [if_neg h2] at henc
        by_cases h3 : -32768 ≤ n
        · rw [if_pos h3] at henc
          cases henc
          simp only [List.cons_append]
          rw [decodeValue_succ]
          simp only [decodeBody]
          repeat rw [if_neg (by omega)]
          rw [if_pos (by trivial)]
          rw [decodeSint_readBE
            (readBE_beBytes 2 (n + 65536).toNat rest (by omega))]
          rw [asSigned_high 2 (n + 65536).toNat (by norm_num; omega)]
          have he : (((n + 65536).toNat : Nat) : Int)
              - ((256 ^ 2 : Nat) : Int) = n := by push_cast; omega
          rw [he]
        · rw [if_neg h3] at henc
          by_cases h4 : -2147483648 ≤ n
          · rw [if_pos h4] at henc
            cases henc
            simp only [List.cons_append]
            rw [decodeValue_succ]
            simp only [decodeBody]
            repeat rw [if_neg (by omega)]
            rw [if_pos (by trivial)]
            rw [decodeSint_readBE
              (readBE_beBytes 4 (n + 4294967296).toNat rest (by omega))]
            rw [asSigned_high 4 (n + 4294967296).toNat (by norm_num; omega)]
            have he : (((n + 4294967296).toNat : Nat) : Int)
                - ((256 ^ 4 : Nat) : Int) = n := by push_cast; omega
            rw [he]
          · rw [if_neg h4] at henc
            by_cases h5 : -9223372036854775808 ≤ n
            · rw [if_pos h5] at henc
              cases henc
              simp only [List.cons_append]
              rw [decodeValue_succ]
              simp only [decodeBody]
              repeat rw [if_neg (by omega)]
              rw [if_pos (by trivial)]
              rw [decodeSint_readBE (readBE_beBytes 8
                (n + 18446744073709551616).toNat rest (by omega))]
              rw [asSigned_high 8 (n + 18446744073709551616).toNat
                (by norm_num; omega)]
              have he : (((n + 18446744073709551616).toNat : Nat) : Int)
                  - ((256 ^ 8 : Nat) : Int) = n := by push_cast; omega
              rw [he]
            · rw [if_neg h5] at henc
              cases henc

theorem decode_strHeader (s hdr rest : List Nat) (fuel : Nat)
    (hh : strHeader s.length = some hdr) :
    decodeValue (fuel + 1) (hdr ++ (s ++ rest)) = some (.str s, rest) := by
  unfold strHeader at hh
  by_cases h1 : s.length < 32
  · rw [if_pos h1] at hh
    cases hh
    simp only [List.cons_append, List.nil_append]
    rw [decodeValue_succ]
    simp only [decodeBody]
    rw [if_neg (by omega), if_neg (by omega), if_neg (by omega),
      if_pos (by omega)]
    have hl : 0xa0 + s.length - 0xa0 = s.length := by omega
    rw [hl, takeBytes_append]
  · rw [if_neg h1] at hh
    by_cases h2 : s.length < 256
    · rw [if_pos h2] at hh
      cases hh
      simp only [List.cons_append, List.nil_append]
      rw [decodeValue_succ]
      simp only [decodeBody]
      repeat rw [if_neg (by omega)]
      rw [if_pos (by trivial)]
      exact decodeStr_readBE (readBE_one s.length (s ++ rest)) s
        (takeBytes_append s rest)
    · rw [if_neg h2] at hh
      by_cases h3 : s.length < 65536
      · rw [if_pos h3] at hh
        cases hh
        simp only [List.cons_append]
        rw [decodeValue_succ]
        simp only [decodeBody]
        repeat rw [if_neg (by omega)]
        rw [if_pos (by trivial)]
        exact decodeStr_readBE
          (readBE_beBytes 2 s.length (s ++ rest) (by omega)) s
          (takeBytes_append s rest)
      · rw [if_neg h3] at hh
        by_cases h4 : s.length < 4294967296
        · rw [if_pos h4] at hh
          cases hh
          simp only [List.cons_append]
          rw [decodeValue_succ]
          simp only [decodeBody]
          repeat rw [if_neg (by omega)]
          rw [if_pos (by trivial)]
          exact decodeStr_readBE
            (readBE_beBytes 4 s.length (s ++ rest) (by omega)) s
            (takeBytes_append s rest)
        · rw [if_neg h4] at hh
          cases hh

theorem decode_binHeader (p hdr rest : List Nat) (fuel : Nat)
    (hh : binHeader p.length = some hdr) :
    decodeValue (fuel + 1) (hdr ++ (p ++ rest)) = some (.bin p, rest) := by
  unfold binHeader at hh
  by_cases h1 : p.length < 256
  · rw [if_pos h1] at hh
    cases hh
    simp only [List.cons_append, List.nil_append]
    rw [decodeValue_succ]
    simp only [decodeBody]
    repeat rw [if_neg (by omega)]
    rw [if_pos (by trivial)]
    exact decodeBin_readBE (readBE_one p.length (p ++ rest)) p
      (takeBytes_append p rest)
  · rw [if_neg h1] at hh
    by_cases h2 : p.length < 65536
    · rw [if_pos h2] at hh
      cases hh
      simp only [List.cons_append]
      rw [decodeValue_succ]
      simp only [decodeBody]
      repeat rw [if_neg (by omega)]
      rw [if_pos (by trivial)]
      exact decodeBin_readBE
        (readBE_beBytes 2 p.length (p ++ rest) (by omega)) p
        (takeBytes_append p rest)
    · rw [if_neg h2] at hh
      by_cases h3 : p.length < 4294967296
      · rw [if_pos h3] at hh
        cases hh
        simp only [List.cons_append]
        rw [decodeValue_succ]
        simp only [decodeBody]
        repeat rw [if_neg (by omega)]
        rw [if_pos (by trivial)]
        exact decodeBin_readBE
          (readBE_beBytes 4 p.length (p ++ rest) (by omega)) p
          (takeBytes_append p rest)
      · rw [if_neg h3] at hh
        cases hh

theorem decodeListCore_encodeList (vs : List Value) (fuel : Nat)
    (IH : ∀ v ∈ vs, ∀ bs rest, encodeValue v = some bs →
      cost v ≤ fuel → decodeValue fuel (bs ++ rest) = some (v, rest)) :
    ∀ bs rest, encodeList vs = some bs → costList vs ≤ fuel →
      decodeListCore (decodeValue fuel) vs.length (bs ++ rest)
        = some (vs, rest) := by
  induction vs with
  | nil =>
    intro bs rest henc _
    unfold encodeList at henc
    cases henc
    rfl
  | cons v vs ih =>
    intro bs rest henc hcost
    unfold encodeList at henc
    cases h1 : encodeValue v with
    | none => rw [h1] at henc; simp at henc
    | some bv =>
      rw [h1] at henc
      cases h2 : encodeList vs with
      | none => rw [h2] at henc; simp at henc
      | some brest =>
        rw [h2] at henc
        simp only [Option.some.injEq] at henc
        subst henc
        unfold costList at hcost
        have hv := IH v (List.mem_cons_self v vs) bv (brest ++ rest) h1
          (by omega)
        have hrest := ih (fun u hu => IH u (List.mem_cons_of_mem v hu))
          brest rest h2 (by omega)
        simp only [List.length_cons, List.append_assoc]
        simp only [decodeListCore, hv, hrest]

theorem decodeEntriesCore_encodeEntries (kvs : List (List Nat × Value))
    (fuel : Nat)
    (IH : ∀ k v, (k, v) ∈ kvs → ∀ bs rest, encodeValue v = some bs →
      cost v ≤ fuel → decodeValue fuel (bs ++ rest) = some (v, rest)) :
    ∀ bs rest, encodeEntries kvs = some bs → costEntries kvs ≤ fuel →
      decodeEntriesCore (decodeValue fuel) kvs.length (bs ++ rest)
        = some (kvs, rest) := by
  induction kvs with
  | nil =>
    intro bs rest henc _
    unfold encodeEntries at henc
    cases henc
    rfl
  | cons kv kvs ih =>
    obtain ⟨k, v⟩ := kv
    intro bs rest henc hcost
    unfold encodeEntries at henc
    cases hk : strHeader k.length with
    | none => rw [hk] at henc; simp at henc
    | some kh =>
      rw [hk] at henc
      cases h1 : encodeValue v with
      | none => rw [h1] at henc; simp at henc
      | some bv =>
        rw [h1] at henc
        cases h2 : encodeEntries kvs with
        | none => rw [h2] at henc; simp at henc
        | some brest =>
          rw [h2] at henc
          simp only [Option.some.injEq] at henc
          subst henc
          unfold costEntries at hcost
          cases fuel with
          | zero => omega
          | succ g =>
            have hkey := decode_strHeader k kh (bv ++ (brest ++ rest)) g hk
            have hv := IH k v (List.mem_cons_self (k, v) kvs) bv
              (brest ++ rest) h1 (by omega)
            have hrest := ih
              (fun k2 v2 hv2 => IH k2 v2 (List.mem_cons_of_mem (k, v) hv2))
              brest rest h2 (by omega)
            simp only [List.length_cons, List.append_assoc]
            simp only [decodeEntriesCore, hkey, hv, hrest]

/-- Roundtrip: decoding an encoded value off the front of any byte
string returns the value and the trailing bytes, for any fuel at least
the value's nesting cost. -/
theorem decodeValue_encodeValue :
    ∀ v : Value, ∀ fuel bs rest, encodeValue v = some bs →
      cost v ≤ fuel → decodeValue fuel (bs ++ rest) = some (v, rest) := by
  apply Value.strong_ind
    (P := fun v => ∀ fuel bs rest, encodeValue v = some bs →
      cost v ≤ fuel → decodeValue fuel (bs ++ rest) = some (v, rest))
  intro v IH fuel bs rest henc hcost
  have hp := cost_pos v
  cases fuel with
  | zero => omega
  | succ f =>
    cases v with
    | nil =>
      unfold encodeValue at henc
      cases henc
      simp only [List.cons_append, List.nil_append]
      rw [decodeValue_succ]
      simp only [decodeBody]
      repeat rw [if_neg (by omega)]
      rw [if_pos (by trivial)]
    | bool b =>
      cases b <;> unfold encodeValue at henc <;> cases henc <;>
        simp only [List.cons_append, List.nil_append] <;>
        rw [decodeValue_succ] <;> simp only [decodeBody] <;>
        (repeat rw [if_neg (by omega)]) <;>
        rw [if_pos (by trivial)]
    | int n =>
      unfold encodeValue at henc
      exact decode_encodeInt n bs rest f henc
    | str s =>
      unfold encodeValue at henc
      cases hh : strHeader s.length with
      | none => rw [hh] at henc; simp at henc
      | some hdr =>
        rw [hh] at henc
        simp only [Option.some.injEq] at henc
        subst henc
        rw [List.append_assoc]
        exact decode_strHeader s hdr rest f hh
    | bin p =>
      unfold encodeValue at henc
      cases hh : binHeader p.length with
      | none => rw [hh] at henc; simp at henc
      | some hdr =>
        rw [hh] at henc
        simp only [Option.some.injEq] at henc
        subst henc
        rw [List.append_assoc]
        exact decode_binHeader p hdr rest f hh
    | arr vs =>
      unfold encodeValue at henc
      cases hh : arrHeader vs.length with
      | none => rw [hh] at henc; simp at henc
      | some hdr =>
        rw [hh] at henc
        cases hb : encodeList vs with
        | none => rw [hb] at henc; simp at henc
        | some body =>
          rw [hb] at henc
          simp only [Option.some.injEq] at henc
          subst henc
          unfold cost at hcost
          have haux := decodeListCore_encodeList vs f
            (fun u hu bs2 rest2 he hc =>
              IH u (sizeOf_mem_arr hu) f bs2 rest2 he hc)
            body rest hb (by omega)
          unfold arrHeader at hh
          by_cases hn1 : vs.length < 16
          · rw [if_pos hn1] at hh
            cases hh
            simp only [List.cons_append, List.nil_append]
            rw [decodeValue_succ]
            simp only [decodeBody]
            rw [if_neg (by omega), if_neg (by omega), if_pos (by omega)]
            have hsub : 0x90 + vs.length - 0x90 = vs.length := by omega
            rw [hsub, haux]
          · rw [if_neg hn1] at hh
            by_cases hn2 : vs.length < 65536
            · rw [if_pos hn2] at hh
              cases hh
              simp only [List.cons_append, List.append_assoc]
              rw [decodeValue_succ]
              simp only [decodeBody]
              repeat rw [if_neg (by omega)]
              rw [if_pos (by trivial)]
              rw [readBE_beBytes 2 vs.length (body ++ rest) (by omega)]
              show (match decodeListCore (decodeValue f) vs.length
                  (body ++ rest) with
                | some (vs2, rest2) => some (Value.arr vs2, rest2)
                | none => none) = some (Value.arr vs, rest)
              rw [haux]
            · rw [if_neg hn2] at hh
              by_cases hn3 : vs.length < 4294967296
              · rw [if_pos hn3] at hh
                cases hh
                simp only [List.cons_append, List.append_assoc]
                rw [decodeValue_succ]
                simp only [decodeBody]
                repeat rw [if_neg (by omega)]
                rw [if_pos (by trivial)]
                rw [readBE_beBytes 4 vs.length (body ++ rest) (by omega)]
                show (match decodeListCore (decodeValue f) vs.length
                    (body ++ rest) with
                  | some (vs2, rest2) => some (Value.arr vs2, rest2)
                  | none => none) = some (Value.arr vs, rest)
                rw [haux]
              · rw [if_neg hn3] at hh
                cases hh
    | map kvs =>
      unfold encodeValue at henc
      cases hh : mapHeader kvs.length with
      | none => rw [hh] at henc; simp at henc
      | some hdr =>
        rw [hh] at henc
        cases hb : encodeEntries kvs with
        | none => rw [hb] at henc; simp at henc
        | some body =>
          rw [hb] at henc
          simp only [Option.some.injEq] at henc
          subst henc
          unfold cost at hcost
          have haux := decodeEntriesCore_encodeEntries kvs f
            (fun k u hu bs2 rest2 he hc =>
              IH u (sizeOf_mem_map hu) f bs2 rest2 he hc)
            body rest hb (by omega)
          unfold mapHeader at hh
          by_cases hn1 : kvs.length < 16
          · rw [if_pos hn1] at hh
            cases hh
            simp only [List.cons_append, List.nil_append]
            rw [decodeValue_succ]
            simp only [decodeBody]
            rw [if_neg (by omega), if_pos (by omega)]
            have hsub : 0x80 + kvs.length - 0x80 = kvs.length := by omega
            rw [hsub, haux]
          · rw [if_neg hn1] at hh
            by_cases hn2 : kvs.length < 65536
            · rw [if_pos hn2] at hh
              cases hh
              simp only [List.cons_append, List.append_assoc]
              rw [decodeValue_succ]
              simp only [decodeBody]
              repeat rw [if_neg (by omega)]
              rw [if_pos (by trivial)]
              rw [readBE_beBytes 2 kvs.length (body ++ rest) (by omega)]
              show (match decodeEntriesCore (decodeValue f) kvs.length
                  (body ++ rest) with
                | some (kvs2, rest2) => some (Value.map kvs2, rest2)
                | none => none) = some (Value.map kvs, rest)
              rw [haux]
            · rw [if_neg hn2] at hh
              by_cases hn3 : kvs.length < 4294967296
              · rw [if_pos hn3] at hh
                cases hh
                simp only [List.cons_append, List.append_assoc]
                rw [decodeValue_succ]
                simp only [decodeBody]
                repeat rw [if_neg (by omega)]
                rw [if_pos (by trivial)]
                rw [readBE_beBytes 4 kvs.length (body ++ rest) (by omega)]
                show (match decodeEntriesCore (decodeValue f) kvs.length
                    (body ++ rest) with
                  | some (kvs2, rest2) => some (Value.map kvs2, rest2)
                  | none => none) = some (Value.map kvs, rest)
                rw [haux]
              · rw [if_neg hn3] at hh
                cases hh

theorem strHeader_length_pos {len : Nat} {h : List Nat}
    (hh : strHeader len = some h) : 1 ≤ h.length := by
  unfold strHeader at hh
  by_cases hc : len < 32
  · rw [if_pos hc] at hh; cases hh; simp
  · rw [if_neg hc] at hh
    by_cases hc : len < 256
    · rw [if_pos hc] at hh; cases hh; simp
    · rw [if_neg hc] at hh
      by_cases hc : len < 65536
      · rw [if_pos hc] at hh; cases hh; simp
      · rw [if_neg hc] at hh
        by_cases hc : len < 4294967296
        · rw [if_pos hc] at hh; cases hh; simp
        · rw [if_neg hc] at hh
          cases hh

theorem binHeader_length_pos {len : Nat} {h : List Nat}
    (hh : binHeader len = some h) : 1 ≤ h.length := by
  unfold binHeader at hh
  by_cases hc : len < 256
  · rw [if_pos hc] at hh; cases hh; simp
  · rw [if_neg hc] at hh
    by_cases hc : len < 65536
    · rw [if_pos hc] at hh; cases hh; simp
    · rw [if_neg hc] at hh
      by_cases hc : len < 4294967296
      · rw [if_pos hc] at hh; cases hh; simp
      · rw [if_neg hc] at hh
        cases hh

theorem arrHeader_length_pos {len : Nat} {h : List Nat}
    (hh : arrHeader len = some h) : 1 ≤ h.length := by
  unfold arrHeader at hh
  by_cases hc : len < 16
  · rw [if_pos hc] at hh; cases hh; simp
  · rw [if_neg hc] at hh
    by_cases hc : len < 65536
    · rw [if_pos hc] at hh; cases hh; simp
    · rw [if_neg hc] at hh
      by_cases hc : len < 4294967296
      · rw [if_pos hc] at hh; cases hh; simp
      · rw [if_neg hc] at hh
        cases hh

theorem mapHeader_length_pos {len : Nat} {h : List Nat}
    (hh : mapHeader len = some h) : 1 ≤ h.length := by
  unfold mapHeader at hh
  by_cases hc : len < 16
  · rw [if_pos hc] at hh; cases hh; simp
  · rw [if_neg hc] at hh
    by_cases hc : len < 65536
    · rw [if_pos hc] at hh; cases hh; simp
    · rw [if_neg hc] at hh
      by_cases hc : len < 4294967296
      · rw [if_pos hc] at hh; cases hh; simp
      · rw [if_neg hc] at hh
        cases hh

theorem encodeInt_length_pos {n : Int} {bs : List Nat}
    (h : encodeInt n = some bs) : 1 ≤ bs.length := by
  unfold encodeInt at h
  by_cases h0 : 0 ≤ n
  · rw [if_pos h0] at h
    by_cases hc : n < 0x80
    · rw [if_pos hc] at h; cases h; simp
    · rw [if_neg hc] at h
      by_cases hc : n < 0x100
      · rw [if_pos hc] at h; cases h; simp
      · rw [if_neg hc] at h
        by_cases hc : n < 0x10000
        · rw [if_pos hc] at h; cases h; simp
        · rw [if_neg hc] at h
          by_cases hc : n < 0x100000000
          · rw [if_pos hc] at h; cases h; simp
          · rw [if_neg hc] at h
            by_cases hc : n < 0x10000000000000000
            · rw [if_pos hc] at h; cases h; simp
            · rw [if_neg hc] at h
              cases h
  · rw [if_neg h0] at h
    by_cases hc : -32 ≤ n
    · rw [if_pos hc] at h; cases h; simp
    · rw [if_neg hc] at h
      by_cases hc : -128 ≤ n
      · rw [if_pos hc] at h; cases h; simp
      · rw [if_neg hc] at h
        by_cases hc : -32768 ≤ n
        · rw [if_pos hc] at h; cases h; simp
        · rw [if_neg hc] at h
          by_cases hc : -2147483648 ≤ n
          · rw [if_pos hc] at h; cases h; simp
          · rw [if_neg hc] at h
            by_cases hc : -9223372036854775808 ≤ n
            · rw [if_pos hc] at h; cases h; simp
            · rw [if_neg hc] at h
              cases h

theorem costList_le_length (vs : List Value)
    (IH : ∀ v ∈ vs, ∀ bs, encodeValue v = some bs → cost v ≤ bs.length) :
    ∀ bs, encodeList vs = some bs → costList vs ≤ bs.length := by
  induction vs with
  | nil => intro bs henc; unfold encodeList at henc; cases henc; simp [costList]
  | cons v vs ih =>
    intro bs henc
    unfold encodeList at henc
    cases h1 : encodeValue v with
    | none => rw [h1] at henc; simp at henc
    | some bv =>
      rw [h1] at henc
      cases h2 : encodeList vs with
      | none => rw [h2] at henc; simp at henc
      | some brest =>
        rw [h2] at henc
        simp only [Option.some.injEq] at henc
        subst henc
        have hv := IH v (List.mem_cons_self v vs) bv h1
        have hrest := ih (fun u hu => IH u (List.mem_cons_of_mem v hu))
          brest h2
        unfold costList
        simp only [List.length_append]
        omega

theorem costEntries_le_length (kvs : List (List Nat × Value))
    (IH : ∀ k v, (k, v) ∈ kvs → ∀ bs, encodeValue v = some bs →
      cost v ≤ bs.length) :
    ∀ bs, encodeEntries kvs = some bs → costEntries kvs ≤ bs.length := by
  induction kvs with
  | nil =>
    intro bs henc; unfold encodeEntries at henc; cases henc
    simp [costEntries]
  | cons kv kvs ih =>
    obtain ⟨k, v⟩ := kv
    intro bs henc
    unfold encodeEntries at henc
    cases hk : strHeader k.length with
    | none => rw [hk] at henc; simp at henc
    | some kh =>
      rw [hk] at henc
      cases h1 : encodeValue v with
      | none => rw [h1] at henc; simp at henc
      | some bv =>
        rw [h1] at henc
        cases h2 : encodeEntries kvs with
        | none => rw [h2] at henc; simp at henc
        | some brest =>
          rw [h2] at henc
          simp only [Option.some.injEq] at henc
          subst henc
          have hkh := strHeader_length_pos hk
          have hv := IH k v (List.mem_cons_self (k, v) kvs) bv h1
          have hrest := ih
            (fun k2 v2 hv2 => IH k2 v2 (List.mem_cons_of_mem (k, v) hv2))
            brest h2
          unfold costEntries
          simp only [List.length_append]
          omega

/-- The fuel a value needs is at most the length of its encoding: every
nesting level consumes at least one byte. -/
theorem cost_le_length :
    ∀ v : Value, ∀ bs, encodeValue v = some bs → cost v ≤ bs.length := by
  apply Value.strong_ind
    (P := fun v => ∀ bs, encodeValue v = some bs → cost v ≤ bs.length)
  intro v IH bs henc
  cases v with
  | nil => unfold encodeValue at henc; cases henc; simp [cost]
  | bool b =>
    cases b <;> unfold encodeValue at henc <;> cases henc <;> simp [cost]
  | int n =>
    unfold encodeValue at henc
    have := encodeInt_length_pos henc
    simp [cost]
    omega
  | str s =>
    unfold encodeValue at henc
    cases hh : strHeader s.length with
    | none => rw [hh] at henc; simp at henc
    | some hdr =>
      rw [hh] at henc
      simp only [Option.some.injEq] at henc
      subst henc
      have := strHeader_length_pos hh
      simp only [cost, List.length_append]
      omega
  | bin p =>
    unfold encodeValue at henc
    cases hh : binHeader p.length with
    | none => rw [hh] at henc; simp at henc
    | some hdr =>
      rw [hh] at henc
      simp only [Option.some.injEq] at henc
      subst henc
      have := binHeader_length_pos hh
      simp only [cost, List.length_append]
      omega
  | arr vs =>
    unfold encodeValue at henc
    cases hh : arrHeader vs.length with
    | none => rw [hh] at henc; simp at henc
    | some hdr =>
      rw [hh] at henc
      cases hb : encodeList vs with
      | none => rw [hb] at henc; simp at henc
      | some body =>
        rw [hb] at henc
        simp only [Option.some.injEq] at henc
        subst henc
        have hhp := arrHeader_length_pos hh
        have hbody := costList_le_length vs
          (fun u hu bs2 he => IH u (sizeOf_mem_arr hu) bs2 he) body hb
        simp only [cost, List.length_append]
        omega
  | map kvs =>
    unfold encodeValue at henc
    cases hh : mapHeader kvs.length with
    | none => rw [hh] at henc; simp at henc
    | some hdr =>
      rw [hh] at henc
      cases hb : encodeEntries kvs with
      | none => rw [hb] at henc; simp at henc
      | some body =>
        rw [hb] at henc
        simp only [Option.some.injEq] at henc
        subst henc
        have hhp := mapHeader_length_pos hh
        have hbody := costEntries_le_length kvs
          (fun k u hu bs2 he => IH u (sizeOf_mem_map hu) bs2 he) body hb
        simp only [cost, List.length_append]
        omega

/-! ## RPC messages and the serializer (src/rpc/types.ts, src/rpc/serializer.ts) -/

/-- Byte representation of the framework's identifier strings; these
are all ASCII, so the UTF-8 bytes are the character codes. -/
def asciiBytes (s : String) : List Nat := s.data.map Char.toNat

/-- `MESSAGE_PATTERN_REQUEST` (src/rpc/types.ts line 3). -/
def MESSAGE_PATTERN_REQUEST : Int := 0

/-- `MESSAGE_PATTERN_EVENT` (src/rpc/types.ts line 4). -/
def MESSAGE_PATTERN_EVENT : Int := 1

/-- `RpcMessage` (src/rpc/types.ts lines 8-14): optional correlation
id, pattern string, arbitrary payload, pattern type (0 request /
1 event) and optional timeout.  Strings are carried as their UTF-8
bytes. -/
structure RpcMsg where
  id : Option (List Nat)
  pattern : List Nat
  data : Value
  patternType : Int
  timeoutMs : Option Int
deriving DecidableEq

/-- The msgpack value of an `RpcMessage` object: a map of its present
fields, in declaration order; absent optional fields are omitted
entirely (JS objects have no entry for them). -/
def RpcMsg.toValue (m : RpcMsg) : Value :=
  .map ((match m.id with
      | some i => [(asciiBytes "id", Value.str i)]
      | none => [])
    ++ [(asciiBytes "pattern", Value.str m.pattern),
        (asciiBytes "data", m.data),
        (asciiBytes "patternType", Value.int m.patternType)]
    ++ (match m.timeoutMs with
      | some t => [(asciiBytes "timeoutMs", Value.int t)]
      | none => []))

/-- `MessagePackSerializer.frame` (src/rpc/serializer.ts lines 33-38):
prefix the payload with a 4-byte big-endian length header. -/
def MessagePackSerializer.frame (payload : List Nat) : List Nat :=
  beBytes 4 payload.length ++ payload

/-- `MessagePackSerializer.serialize` (src/rpc/serializer.ts lines
15-17): `frame(encode(message))`.  `none` models the library throwing
on unencodable sizes. -/
def MessagePackSerializer.serialize (m : RpcMsg) : Option (List Nat) :=
  (encodeValue m.toValue).map MessagePackSerializer.frame

/-- `MessagePackSerializer.deserialize` (src/rpc/serializer.ts lines
24-26): `decode(buffer)`.  The library decodes one value from the
whole buffer and rejects leftover bytes; the fuel `buffer.length`
always suffices (`cost_le_length`). -/
def MessagePackSerializer.deserialize (buffer : List Nat) : Option Value :=
  match decodeValue buffer.length buffer with
  | some (v, []) => some v
  | _ => none

/-- Decoding an encoded value with fuel equal to its own length
consumes it exactly. -/
theorem deserialize_encodeValue (v : Value) (bs : List Nat)
    (henc : encodeValue v = some bs) :
    MessagePackSerializer.deserialize bs = some v := by
  unfold MessagePackSerializer.deserialize
  have hc := cost_le_length v bs henc
  have hd := decodeValue_encodeValue v bs.length bs [] henc hc
  rw [List.append_nil] at hd
  rw [hd]

/-- Stripping the 4-byte frame header recovers the msgpack payload. -/
theorem frame_drop_four (p : List Nat) :
    (MessagePackSerializer.frame p).drop 4 = p := by
  unfold MessagePackSerializer.frame
  have t := List.drop_left (beBytes 4 p.length) p
  rw [beBytes_length] at t
  exact t

/-! ## Claims about the serializer (C1, C10) and the framer (C6) -/

/-- A minimal request message used as concrete input. -/
def msgNoId : RpcMsg :=
  { id := none, pattern := asciiBytes "p", data := .nil,
    patternType := 0, timeoutMs := none }

/-- A request message with all optional fields present. -/
def msgFull : RpcMsg :=
  { id := some (asciiBytes "r1"), pattern := asciiBytes "a", data := .int 5,
    patternType := 0, timeoutMs := some 100 }

/-- The msgpack payload of `msgFull`, spelled out. -/
def msgFullPayload : List Nat :=
  [133, 162, 105, 100, 162, 114, 49, 167, 112, 97, 116, 116, 101, 114, 110,
   161, 97, 164, 100, 97, 116, 97, 5, 171, 112, 97, 116, 116, 101, 114, 110,
   84, 121, 112, 101, 0, 169, 116, 105, 109, 101, 111, 117, 116, 77, 115,
   100]

/-- The framed serialization of `msgNoId`, spelled out. -/
def msgNoIdFramed : List Nat :=
  [0, 0, 0, 30, 131, 167, 112, 97, 116, 116, 101, 114, 110, 161, 112, 164,
   100, 97, 116, 97, 192, 171, 112, 97, 116, 116, 101, 114, 110, 84, 121,
   112, 101, 0]

/-- C1 counterexample: `deserialize (serialize M)` is NOT `M` — the
serializer prepends a 4-byte frame header that `deserialize` never
strips, so decoding the framed bytes fails (the header byte `0` decodes
as the integer 0 and the rest of the buffer is left over) even though
serialization itself succeeded. -/
theorem serialize_then_deserialize_fails :
    (MessagePackSerializer.serialize msgNoId).bind
        MessagePackSerializer.deserialize = none
      ∧ MessagePackSerializer.serialize msgNoId ≠ none := by
  decide

/-- C1 (amended): after stripping the 4-byte frame header that
`serialize` adds, `deserialize` returns the message's msgpack value:
`deserialize((serialize M).drop 4) = M`.  This matches the repository's
own serializer tests, which always slice off the first 4 bytes. -/
theorem deserialize_unframed_serialize (m : RpcMsg) (bs : List Nat)
    (h : MessagePackSerializer.serialize m = some bs) :
    MessagePackSerializer.deserialize (bs.drop 4) = some m.toValue := by
  unfold MessagePackSerializer.serialize at h
  cases henc : encodeValue m.toValue with
  | none => rw [henc] at h; simp at h
  | some p =>
    rw [henc] at h
    simp only [Option.map_some', Option.some.injEq] at h
    subst h
    rw [frame_drop_four]
    exact deserialize_encodeValue m.toValue p henc

/-- C1 witness: the amended roundtrip at a concrete message. -/
theorem deserialize_unframed_serialize_witness :
    MessagePackSerializer.deserialize (msgNoIdFramed.drop 4)
      = some msgNoId.toValue :=
  deserialize_unframed_serialize msgNoId msgNoIdFramed (by decide)

/-- C10: `serialize M` is exactly the 4-byte big-endian length header
of the msgpack payload `encode(M)` followed by that payload, and
deserializing the serialized bytes with the first 4 bytes removed
yields `M` back. -/
theorem serialize_frame_structure (m : RpcMsg) (p : List Nat)
    (henc : encodeValue m.toValue = some p) :
    MessagePackSerializer.serialize m = some (beBytes 4 p.length ++ p)
      ∧ MessagePackSerializer.deserialize
          ((beBytes 4 p.length ++ p).drop 4) = some m.toValue := by
  constructor
  · unfold MessagePackSerializer.serialize
    rw [henc]
    rfl
  · have t := List.drop_left (beBytes 4 p.length) p
    rw [beBytes_length] at t
    rw [t]
    exact deserialize_encodeValue m.toValue p henc

/-- C10 witness: the frame structure at a concrete message. -/
theorem serialize_frame_structure_witness :
    MessagePackSerializer.serialize msgFull
        = some (beBytes 4 msgFullPayload.length ++ msgFullPayload)
      ∧ MessagePackSerializer.deserialize
          ((beBytes 4 msgFullPayload.length ++ msgFullPayload).drop 4)
        = some msgFull.toValue :=
  serialize_frame_structure msgFull msgFullPayload (by decide)

/-- C6: for every payload within the 10 MiB bound, the `FrameReader`
yields exactly the payload from its `createFrameMessage` framing:
`Frame.decode(Frame.encode(P)) = P`, with the buffer fully consumed. -/
theorem frame_roundtrip (P : List Nat) (h : P.length ≤ MAX_MESSAGE_SIZE) :
    frameReaderNext [] [createFrameMessage P] = (some P, [], []) :=
  frameReaderNext_frame P
    (by unfold MAX_MESSAGE_SIZE at h; norm_num; omega)

/-- C6 witness: the frame roundtrip at a concrete payload. -/
theorem frame_roundtrip_witness :
    frameReaderNext [] [createFrameMessage [1, 2, 3]]
      = (some [1, 2, 3], [], []) :=
  frame_roundtrip [1, 2, 3] (by decide)

/-! ## Claims about the size bound and end-of-stream (C2, C3) -/

/-- A payload one byte over the 10 MiB bound. -/
def oversizedPayload : List Nat := List.replicate (MAX_MESSAGE_SIZE + 1) 0

/-- C2 counterexample: the connection session reads frames with
`FrameReader` (src/unnamed/part_008 line 159), whose `next()` performs
no length validation: on a frame whose header declares
`MAX_MESSAGE_SIZE + 1` bytes it returns the oversized payload instead
of failing with an `InvalidLength` error. -/
theorem frameReader_accepts_oversized :
    frameReaderNext [] [createFrameMessage oversizedPayload]
        = (some oversizedPayload, [], [])
      ∧ MAX_MESSAGE_SIZE < oversizedPayload.length := by
  have hlen : oversizedPayload.length = MAX_MESSAGE_SIZE + 1 :=
    List.length_replicate (MAX_MESSAGE_SIZE + 1) 0
  constructor
  · exact frameReaderNext_frame oversizedPayload
      (by rw [hlen]; unfold MAX_MESSAGE_SIZE; norm_num)
  · rw [hlen]
    omega

/-- C2 (amended): the 10 MiB bound is enforced by `StreamReader.next`
(src/rpc/stream.ts lines 36-40), the alternative reader that the
connection session does not use: whenever the buffered header declares
a length over `MAX_MESSAGE_SIZE`, it fails with the invalid-length
error.  The `FrameReader` actually wired into the session imposes no
bound (see the counterexample). -/
theorem streamReader_rejects_oversized (buffer : List Nat)
    (chunks : List (List Nat))
    (hbuf : buffer.length ≤ MAX_BUFFER_SIZE) (h4 : 4 ≤ buffer.length)
    (hlen : readUint32BigEndian buffer > MAX_MESSAGE_SIZE) :
    streamReaderNext buffer chunks = .error .invalidLength := by
  rw [streamReaderNext.eq_def]
  rw [if_neg (by omega), if_neg (by omega), if_pos hlen]

/-- C2 witness: a 4-byte header declaring `2^31` bytes. -/
theorem streamReader_rejects_oversized_witness :
    streamReaderNext [128, 0, 0, 0] [] = .error .invalidLength :=
  streamReader_rejects_oversized [128, 0, 0, 0] [] (by decide) (by decide)
    (by decide)

/-- C3 counterexample: end-of-stream with a non-empty buffer does NOT
always fail with `IncompleteMessage`: with a single buffered byte (a
partial header), `StreamReader.next` takes the `buffer.length < 4`
read branch, sees `done`, and returns a clean end-of-stream even
though its buffer is non-empty. -/
theorem streamReader_partial_header_clean_eos :
    streamReaderNext [] [[0]] = .ok (none, [0], [])
      ∧ streamReaderNext [] [[0]] ≠ .error .incompleteMessage := by
  decide

/-- C3 (amended): end-of-stream behaviour of `StreamReader.next`:
with an empty buffer it returns a clean end-of-stream; with a complete
4-byte header of valid length and an incomplete payload it fails with
`IncompleteMessage`; but with only a partial header (fewer than 4
buffered bytes) it also returns a clean end-of-stream. -/
theorem streamReader_eos_behavior :
    streamReaderNext [] [] = .ok (none, [], [])
      ∧ (∀ buf : List Nat, buf.length ≤ MAX_BUFFER_SIZE →
          4 ≤ buf.length → readUint32BigEndian buf ≤ MAX_MESSAGE_SIZE →
          buf.length < 4 + readUint32BigEndian buf →
          streamReaderNext buf [] = .error .incompleteMessage)
      ∧ (∀ buf : List Nat, buf.length < 4 →
          streamReaderNext buf [] = .ok (none, buf, [])) := by
  refine ⟨by decide, ?_, ?_⟩
  · intro buf hbuf h4 hvalid hshort
    rw [streamReaderNext.eq_def]
    rw [if_neg (by omega), if_neg (by omega), if_neg (by omega),
      if_neg (by omega)]
    show (if buf.length > 0 then Except.error StreamErr.incompleteMessage
      else Except.ok (none, buf, [])) = Except.error StreamErr.incompleteMessage
    rw [if_pos (by omega)]
  · intro buf hlt
    rw [streamReaderNext.eq_def]
    have hb : ¬ buf.length > MAX_BUFFER_SIZE := by
      unfold MAX_BUFFER_SIZE
      omega
    rw [if_neg hb, if_pos hlt]

/-- C3 witness: a complete header declaring 2 bytes with only 1 byte
of payload buffered fails with `IncompleteMessage` at end-of-stream. -/
theorem streamReader_eos_behavior_witness :
    streamReaderNext [0, 0, 0, 2, 9] [] = .error .incompleteMessage :=
  streamReader_eos_behavior.2.1 [0, 0, 0, 2, 9] (by decide) (by decide)
    (by decide) (by decide)

/-! ## Reply construction and request dispatch
(src/unnamed/part_008, `tcpTransport.ts`) -/

/-- `DEFAULT_TIMEOUT_MS` (src/unnamed/part_008 line 25). -/
def DEFAULT_TIMEOUT_MS : Nat := 5000

/-- The reply object built by `TcpTransport.sendReply`
(src/unnamed/part_008 lines 334-342): include `id` only when it is
defined, pattern `"REPLY"`, `null` in place of a handler result that
was `undefined` or `null`, and `patternType` REQUEST.  The handler
result is `Option Value`: `none` models JS `undefined`,
`some Value.nil` models `null`. -/
def sendReplyMessage (id : Option (List Nat)) (replyData : Option Value) :
    RpcMsg :=
  { id := id
    pattern := asciiBytes "REPLY"
    data :=
      match replyData with
      | none => Value.nil
      | some Value.nil => Value.nil
      | some v => v
    patternType := MESSAGE_PATTERN_REQUEST
    timeoutMs := none }

/-- C5: every reply has pattern `"REPLY"` and patternType REQUEST,
echoes the request id exactly (present iff the request had one), maps
a missing handler result (`undefined` or `null`) to a `null` payload,
and its msgpack map contains an `id` entry exactly when the id was
present — the absent field is omitted, never a null or an
"undefined" sentinel. -/
theorem sendReply_spec (id : Option (List Nat)) (rd : Option Value) :
    (sendReplyMessage id rd).pattern = asciiBytes "REPLY"
      ∧ (sendReplyMessage id rd).patternType = MESSAGE_PATTERN_REQUEST
      ∧ (sendReplyMessage id rd).id = id
      ∧ (sendReplyMessage id none).data = Value.nil
      ∧ (sendReplyMessage id (some Value.nil)).data = Value.nil
      ∧ RpcMsg.toValue (sendReplyMessage id rd)
          = Value.map ((match id with
              | some i => [(asciiBytes "id", Value.str i)]
              | none => [])
            ++ [(asciiBytes "pattern", Value.str (asciiBytes "REPLY")),
                (asciiBytes "data", (sendReplyMessage id rd).data),
                (asciiBytes "patternType", Value.int 0)]) := by
  refine ⟨rfl, rfl, rfl, rfl, rfl, ?_⟩
  cases id <;> rfl

/-- Outcome of the `Promise.race` in `executeWithTracing`
(src/unnamed/part_008 lines 285-289): the middleware/handler chain
settles first (with a value or a thrown error), or the timeout promise
rejects first, or the abort promise rejects first.  Which promise wins
is a scheduling fact and is a parameter of the model. -/
inductive RaceWinner where
  | chain (result : Except String (Option Value))
  | timeout
  | abort

/-- The settled result of `executeWithTracing`
(src/unnamed/part_008 lines 244-301) as a function of the race winner:
the timeout promise rejects with `Timeout after <N>ms` where `N` is
`timeoutMs ?? DEFAULT_TIMEOUT_MS`; the abort promise rejects with
`Client disconnected`. -/
def executeWithTracing (timeoutMs : Option Nat) (w : RaceWinner) :
    Except String (Option Value) :=
  match w with
  | .chain r => r
  | .timeout =>
    .error ("Timeout after "
      ++ toString (timeoutMs.getD DEFAULT_TIMEOUT_MS) ++ "ms")
  | .abort => .error "Client disconnected"

/-- `TcpTransport.handleRequest` (src/unnamed/part_008 lines 196-224):
on success send the reply unless the session signal is aborted; on a
caught error, if the signal is aborted return without replying,
otherwise reply with `{error: message || "Handler failed"}`.  Returns
the reply sent (if any) and the abort flag — the dispatch itself never
aborts the session. -/
def handleRequest (id : Option (List Nat)) (timeoutMs : Option Nat)
    (w : RaceWinner) (aborted : Bool) : Option RpcMsg × Bool :=
  match executeWithTracing timeoutMs w with
  | .ok v =>
    if aborted then (none, aborted)
    else (some (sendReplyMessage id v), aborted)
  | .error e =>
    if aborted then (none, aborted)
    else
      (some (sendReplyMessage id (some (.map [(asciiBytes "error",
        .str (asciiBytes (if e = "" then "Handler failed" else e)))]))),
        aborted)

/-- C4: when the timeout fires first on a non-aborted session, the
dispatch sends a reply whose data is `{error: "Timeout after <N>ms"}`
with `N = timeoutMs` when provided and `N = 5000` otherwise, and does
not cancel the session (the abort flag stays false, so the session
loop keeps reading). -/
theorem timeout_reply (id : Option (List Nat)) (timeoutMs : Option Nat) :
    handleRequest id timeoutMs .timeout false
      = (some { id := id
                pattern := asciiBytes "REPLY"
                data := .map [(asciiBytes "error", .str (asciiBytes
                  ("Timeout after "
                    ++ toString (timeoutMs.getD DEFAULT_TIMEOUT_MS)
                    ++ "ms")))]
                patternType := MESSAGE_PATTERN_REQUEST
                timeoutMs := none },
         false) := by
  have hne : ("Timeout after "
      ++ toString (timeoutMs.getD DEFAULT_TIMEOUT_MS) ++ "ms") ≠ "" := by
    intro h
    have h2 := congrArg String.length h
    rw [String.length_append, String.length_append] at h2
    have h14 : ("Timeout after " : String).length = 14 := rfl
    have hms : ("ms" : String).length = 2 := rfl
    have h0 : ("" : String).length = 0 := rfl
    omega
  simp only [handleRequest, executeWithTracing, Bool.false_eq_true,
    if_false]
  rw [if_neg hne]
  rfl

/-! ## Middleware pipeline (src/unnamed/part_008 lines 303-325) -/

/-- An observation recorded by an instrumented middleware or handler:
who ran, in which phase, and the `data` it saw. -/
structure MwEvent where
  who : String
  phase : String
  seen : Value
deriving DecidableEq

/-- The effect monad for observing the pipeline: state is the list of
events recorded so far; middleware or the aborted-signal check may
throw. -/
abbrev TraceM (α : Type) := StateT (List MwEvent) (Except String) α

/-- A middleware is `(message, next) → result`
(src/rpc/types.ts lines 20-23). -/
abbrev Middleware := RpcMsg → (Unit → TraceM (Option Value)) →
  TraceM (Option Value)

/-- The index recursion of `runMiddlewareChain`
(src/unnamed/part_008 lines 316-322): past the end of the list invoke
`execute`; otherwise invoke the middleware at the index on the
data-enriched message with `next` running the rest of the chain. -/
def runMiddlewareIndex (execute : Unit → TraceM (Option Value))
    (msgWithData : RpcMsg) : List Middleware → TraceM (Option Value)
  | [] => execute ()
  | m :: rest =>
    m msgWithData (fun _ => runMiddlewareIndex execute msgWithData rest)

/-- `TcpTransport.runMiddlewareChain` (src/unnamed/part_008 lines
303-325): `execute` checks the abort signal and invokes the handler on
the trace-enriched data; every middleware receives `{...msg, data:
enrichedData}`. -/
def runMiddlewareChain (msg : RpcMsg) (enrichedData : Value)
    (handler : Value → TraceM (Option Value))
    (middleware : List Middleware) (signalAborted : Bool) :
    TraceM (Option Value) :=
  runMiddlewareIndex
    (fun _ =>
      if signalAborted then throw "Client disconnected"
      else handler enrichedData)
    { msg with data := enrichedData }
    middleware

/-- Record one event. -/
def recordEvent (e : MwEvent) : TraceM Unit :=
  fun s => .ok ((), s ++ [e])

/-- A middleware that records a `before` event, calls `next()` once,
then records an `after` event; both events carry the message data it
observed. -/
def obsMiddleware (name : String) : Middleware := fun message next => do
  recordEvent { who := name, phase := "before", seen := message.data }
  let result ← next ()
  recordEvent { who := name, phase := "after", seen := message.data }
  pure result

/-- A terminal handler that records its invocation (with the data it
was given) and returns `ret`. -/
def obsHandler (hname : String) (ret : Option Value) :
    Value → TraceM (Option Value) := fun d => do
  recordEvent { who := hname, phase := "handler", seen := d }
  pure ret

/-- C7: composing middleware `[A, B]` around handler `H` on a message
with enriched data `x` runs, in order, `A.before`, `B.before`, `H(x)`,
`B.after`, `A.after`; the last middleware's `next()` invokes the
handler on the enriched data, every middleware observes that same
enriched data, and the chain's result is the handler's result. -/
theorem middleware_order (a b hname : String) (msg : RpcMsg)
    (enriched : Value) (ret : Option Value) :
    runMiddlewareChain msg enriched (obsHandler hname ret)
        [obsMiddleware a, obsMiddleware b] false []
      = .ok (ret,
        [{ who := a, phase := "before", seen := enriched },
         { who := b, phase := "before", seen := enriched },
         { who := hname, phase := "handler", seen := enriched },
         { who := b, phase := "after", seen := enriched },
         { who := a, phase := "after", seen := enriched }]) := rfl

/-! ## JS maps/objects, the registry, and the health check -/

/-- JS `Map.set` — equally, updating a key in an object spread
`{...obj, k: v}`: if the key is present, its value is replaced in
place (insertion order kept); otherwise the entry is appended. -/
def mapSet {κ α : Type} [DecidableEq κ] (m : List (κ × α)) (k : κ)
    (v : α) : List (κ × α) :=
  if m.any (fun kv => decide (kv.1 = k)) then
    m.map (fun kv => if kv.1 = k then (k, v) else kv)
  else m ++ [(k, v)]

/-- JS `Map.get` — equally, property lookup on an object. -/
def mapGet {κ α : Type} [DecidableEq κ] (m : List (κ × α)) (k : κ) :
    Option α :=
  match m with
  | [] => none
  | kv :: rest => if kv.1 = k then some kv.2 else mapGet rest k

theorem mapGet_cons {κ α : Type} [DecidableEq κ] (kv : κ × α)
    (rest : List (κ × α)) (k : κ) :
    mapGet (kv :: rest) k
      = if kv.1 = k then some kv.2 else mapGet rest k := rfl

theorem mapGet_update_self {κ α : Type} [DecidableEq κ]
    (m : List (κ × α)) (k : κ) (v : α)
    (hany : m.any (fun kv => decide (kv.1 = k)) = true) :
    mapGet (m.map (fun kv => if kv.1 = k then (k, v) else kv)) k
      = some v := by
  induction m with
  | nil => simp at hany
  | cons kv m ih =>
    by_cases h1 : kv.1 = k
    · simp only [List.map_cons, if_pos h1]
      rw [mapGet_cons]
      rw [if_pos rfl]
    · simp only [List.any_cons, decide_eq_true_eq, h1, decide_False,
        Bool.false_or] at hany
      simp only [List.map_cons, if_neg h1]
      rw [mapGet_cons]
      rw [if_neg h1]
      exact ih hany

theorem mapGet_update_ne {κ α : Type} [DecidableEq κ]
    (m : List (κ × α)) (k k2 : κ) (v : α) (h : k2 ≠ k) :
    mapGet (m.map (fun kv => if kv.1 = k then (k, v) else kv)) k2
      = mapGet m k2 := by
  induction m with
  | nil => rfl
  | cons kv m ih =>
    by_cases h1 : kv.1 = k
    · simp only [List.map_cons, if_pos h1]
      rw [mapGet_cons, mapGet_cons]
      rw [if_neg (fun he => h he.symm), if_neg (fun he => h (h1 ▸ he).symm)]
      exact ih
    · simp only [List.map_cons, if_neg h1]
      rw [mapGet_cons, mapGet_cons]
      by_cases h2 : kv.1 = k2
      · rw [if_pos h2, if_pos h2]
      · rw [if_neg h2, if_neg h2]
        exact ih

theorem mapGet_of_any_false {κ α : Type} [DecidableEq κ]
    (m : List (κ × α)) (k : κ)
    (hany : m.any (fun kv => decide (kv.1 = k)) = false) :
    mapGet m k = none := by
  induction m with
  | nil => rfl
  | cons kv m ih =>
    simp only [List.any_cons, Bool.or_eq_false_iff,
      decide_eq_false_iff_not] at hany
    rw [mapGet_cons]
    rw [if_neg hany.1]
    exact ih hany.2

theorem mapGet_append_of_none {κ α : Type} [DecidableEq κ]
    (m l2 : List (κ × α)) (k : κ) (hnone : mapGet m k = none) :
    mapGet (m ++ l2) k = mapGet l2 k := by
  induction m with
  | nil => rfl
  | cons kv m ih =>
    rw [mapGet_cons] at hnone
    by_cases h1 : kv.1 = k
    · rw [if_pos h1] at hnone
      cases hnone
    · rw [if_neg h1] at hnone
      simp only [List.cons_append]
      rw [mapGet_cons]
      rw [if_neg h1]
      exact ih hnone

theorem mapGet_append_singleton_ne {κ α : Type} [DecidableEq κ]
    (m : List (κ × α)) (k k2 : κ) (v : α) (h : k2 ≠ k) :
    mapGet (m ++ [(k, v)]) k2 = mapGet m k2 := by
  induction m with
  | nil =>
    simp only [List.nil_append]
    rw [mapGet_cons]
    rw [if_neg (fun he => h he.symm)]
  | cons kv m ih =>
    simp only [List.cons_append]
    rw [mapGet_cons, mapGet_cons]
    by_cases h1 : kv.1 = k2
    · rw [if_pos h1, if_pos h1]
    · rw [if_neg h1, if_neg h1]
      exact ih

/-- After `mapSet m k v`, looking up `k` yields `v`. -/
theorem mapGet_mapSet_self {κ α : Type} [DecidableEq κ]
    (m : List (κ × α)) (k : κ) (v : α) :
    mapGet (mapSet m k v) k = some v := by
  unfold mapSet
  by_cases hany : m.any (fun kv => decide (kv.1 = k)) = true
  · rw [if_pos hany]
    exact mapGet_update_self m k v hany
  · rw [if_neg hany]
    have hfalse : m.any (fun kv => decide (kv.1 = k)) = false :=
      Bool.eq_false_iff.mpr hany
    rw [mapGet_append_of_none m [(k, v)] k (mapGet_of_any_false m k hfalse)]
    rw [mapGet_cons]
    rw [if_pos rfl]

/-- `mapSet m k v` leaves every other key unchanged. -/
theorem mapGet_mapSet_ne {κ α : Type} [DecidableEq κ]
    (m : List (κ × α)) (k k2 : κ) (v : α) (h : k2 ≠ k) :
    mapGet (mapSet m k v) k2 = mapGet m k2 := by
  unfold mapSet
  by_cases hany : m.any (fun kv => decide (kv.1 = k)) = true
  · rw [if_pos hany]
    exact mapGet_update_ne m k k2 v h
  · rw [if_neg hany]
    exact mapGet_append_singleton_ne m k k2 v h

/-- Readings of the ambient system clocks at the instant the health
handler runs.  `osUptimeSec` models `Deno.osUptime()`, the number of
seconds the OPERATING SYSTEM has been running; `processUptimeSec` is
the server process's own uptime, which the code never reads — it is
carried here only so the two notions can be compared. -/
structure SysEnv where
  nowMs : Int
  osUptimeSec : Rat
  processUptimeSec : Rat

/-- The handler installed by `TcpTransport.registerHealthCheck`
(src/unnamed/part_008 lines 36-42): `() => ({status: "ok", timestamp:
Date.now(), uptime: Math.floor(Deno.osUptime())})`. -/
def healthCheckHandler (env : SysEnv) : Value :=
  .map [(asciiBytes "status", .str (asciiBytes "ok")),
        (asciiBytes "timestamp", .int env.nowMs),
        (asciiBytes "uptime", .int ⌊env.osUptimeSec⌋)]

/-- The two handler maps of `RpcHandler`
(src/unnamed/part_003 lines 50-57), with handlers of type `H`. -/
structure RpcHandlerSt (H : Type) where
  requestHandlers : List (String × H)
  eventHandlers : List (String × H)

/-- `RpcHandler.getHandler` (src/unnamed/part_003 lines 116-120). -/
def getHandler {H : Type} (st : RpcHandlerSt H) (pattern : String)
    (ty : Int) : Option H :=
  if ty = MESSAGE_PATTERN_REQUEST then mapGet st.requestHandlers pattern
  else mapGet st.eventHandlers pattern

/-- `TcpTransport.registerHealthCheck` (src/unnamed/part_008 lines
36-42), invoked by the constructor (line 33):
`registry.requestHandlers.set("__health__", ...)`. -/
def registerHealthCheck (st : RpcHandlerSt (SysEnv → Value)) :
    RpcHandlerSt (SysEnv → Value) :=
  { st with requestHandlers :=
      mapSet st.requestHandlers "__health__" healthCheckHandler }

/-- Concrete environment where OS uptime and process uptime differ. -/
def envC8 : SysEnv :=
  { nowMs := 1000, osUptimeSec := 100, processUptimeSec := 7 }

/-- C8 counterexample: the health payload's `uptime` is
`Math.floor(Deno.osUptime())` — the OPERATING SYSTEM's uptime — not
the process's uptime: in an environment where the OS has been up 100
seconds but the server process only 7, the handler reports 100. -/
theorem health_uptime_is_os_uptime :
    healthCheckHandler envC8
        = .map [(asciiBytes "status", .str (asciiBytes "ok")),
                (asciiBytes "timestamp", .int 1000),
                (asciiBytes "uptime", .int 100)]
      ∧ ⌊envC8.osUptimeSec⌋ ≠ ⌊envC8.processUptimeSec⌋ := by
  constructor
  · rfl
  · decide

/-- C8 (amended): after construction a request handler is registered
at `__health__` that returns `{status: "ok", timestamp: <wall-clock
ms>, uptime: <floor of the OS uptime in seconds, an integer ≥ 0>}` —
the uptime reported is the operating system's, not the process's. -/
theorem health_handler_registered (st : RpcHandlerSt (SysEnv → Value))
    (env : SysEnv) (h : 0 ≤ env.osUptimeSec) :
    getHandler (registerHealthCheck st) "__health__"
        MESSAGE_PATTERN_REQUEST = some healthCheckHandler
      ∧ healthCheckHandler env
          = .map [(asciiBytes "status", .str (asciiBytes "ok")),
                  (asciiBytes "timestamp", .int env.nowMs),
                  (asciiBytes "uptime", .int ⌊env.osUptimeSec⌋)]
      ∧ 0 ≤ ⌊env.osUptimeSec⌋ := by
  refine ⟨?_, rfl, ?_⟩
  · unfold getHandler registerHealthCheck
    rw [if_pos rfl]
    exact mapGet_mapSet_self st.requestHandlers "__health__"
      healthCheckHandler
  · exact Int.le_floor.mpr (by exact_mod_cast h)

/-- C8 witness: the registration and payload shape at a concrete
registry and environment. -/
theorem health_handler_registered_witness :
    getHandler (registerHealthCheck
        { requestHandlers := [], eventHandlers := [] }) "__health__"
        MESSAGE_PATTERN_REQUEST = some healthCheckHandler
      ∧ healthCheckHandler envC8
          = .map [(asciiBytes "status", .str (asciiBytes "ok")),
                  (asciiBytes "timestamp", .int envC8.nowMs),
                  (asciiBytes "uptime", .int ⌊envC8.osUptimeSec⌋)]
      ∧ 0 ≤ ⌊envC8.osUptimeSec⌋ :=
  health_handler_registered { requestHandlers := [], eventHandlers := [] }
    envC8 (by decide)

/-! ## Tracing injection (src/rpc/tracing.ts lines 21-30) -/

/-- The ids of the active span. -/
structure SpanCtx where
  traceId : String
  spanId : String

/-- The W3C traceparent string written on outbound data:
`00-<traceId>-<spanId>-01` (src/rpc/tracing.ts line 27). -/
def traceparentValue (s : SpanCtx) : List Nat :=
  asciiBytes ("00-" ++ s.traceId ++ "-" ++ s.spanId ++ "-01")

/-- `typeof data === "object" && data !== null`: maps, arrays and
byte strings are JS objects; `null` has typeof `"object"` but is
excluded by the null check, so it ends in the `false` class with the
primitives. -/
def isJsObjectType : Value → Bool
  | .map _ => true
  | .arr _ => true
  | .bin _ => true
  | _ => false

/-- The enumerable own entries that an object spread `{...data}`
copies: a map's entries in order; for an array or a byte string, the
index keys `"0"`, `"1"`, … with the elements. -/
def jsOwnEntries : Value → List (List Nat × Value)
  | .map kvs => kvs
  | .arr vs => vs.enum.map (fun p => (asciiBytes (toString p.1), p.2))
  | .bin bs =>
    bs.enum.map (fun p => (asciiBytes (toString p.1), Value.int p.2))
  | _ => []

/-- `injectTraceContext` (src/rpc/tracing.ts lines 21-30): primitives
and `null` are returned unchanged; any object is spread into a fresh
mapping with `traceparent` set (overwriting a caller-supplied value in
place, else appended) to the active span's ids with flags `01`. -/
def injectTraceContext (s : SpanCtx) (data : Value) : Value :=
  if isJsObjectType data then
    .map (mapSet (jsOwnEntries data) (asciiBytes "traceparent")
      (.str (traceparentValue s)))
  else data

/-- A concrete span. -/
def spanC9 : SpanCtx := { traceId := "a", spanId := "b" }

/-- C9 counterexample: an array is NOT returned unchanged — JS arrays
have typeof `"object"`, so the spread turns `[1]` into the mapping
`{"0": 1, "traceparent": ...}`. -/
theorem inject_changes_array :
    injectTraceContext spanC9 (.arr [.int 1])
        = .map [(asciiBytes "0", .int 1),
                (asciiBytes "traceparent",
                  .str (traceparentValue spanC9))]
      ∧ injectTraceContext spanC9 (.arr [.int 1]) ≠ .arr [.int 1] := by
  decide

/-- C9 (amended): `injectTraceContext` returns `null` and primitives
(booleans, numbers, strings) unchanged; on a mapping it returns the
mapping with `traceparent` set to `00-<traceId>-<spanId>-01`
(overwriting any caller value) and every other key unchanged; but on
any other object — an array or a byte string — it returns the
object's enumerable entries spread into a fresh mapping with
`traceparent` set, not the value unchanged. -/
theorem injectTraceContext_spec (s : SpanCtx) (data : Value)
    (kvs : List (List Nat × Value)) (k : List Nat) :
    (isJsObjectType data = false → injectTraceContext s data = data)
      ∧ injectTraceContext s (.map kvs)
          = .map (mapSet kvs (asciiBytes "traceparent")
              (.str (traceparentValue s)))
      ∧ mapGet (mapSet kvs (asciiBytes "traceparent")
            (.str (traceparentValue s))) (asciiBytes "traceparent")
          = some (.str (traceparentValue s))
      ∧ (k ≠ asciiBytes "traceparent" →
          mapGet (mapSet kvs (asciiBytes "traceparent")
              (.str (traceparentValue s))) k = mapGet kvs k)
      ∧ (isJsObjectType data = true →
          injectTraceContext s data
            = .map (mapSet (jsOwnEntries data) (asciiBytes "traceparent")
                (.str (traceparentValue s)))) := by
  refine ⟨?_, rfl, ?_, ?_, ?_⟩
  · intro h
    unfold injectTraceContext
    rw [h]
    rfl
  · exact mapGet_mapSet_self kvs (asciiBytes "traceparent")
      (.str (traceparentValue s))
  · intro hk
    exact mapGet_mapSet_ne kvs (asciiBytes "traceparent") k
      (.str (traceparentValue s)) hk
  · intro h
    unfold injectTraceContext
    rw [h]
    rfl

/-- C9 witness: a number is unchanged; a mapping keeps its other keys
and gains the span's traceparent. -/
theorem injectTraceContext_spec_witness :
    injectTraceContext spanC9 (.int 5) = .int 5
      ∧ mapGet (mapSet [(asciiBytes "x", Value.int 1)]
            (asciiBytes "traceparent")
            (.str (traceparentValue spanC9))) (asciiBytes "x")
          = some (.int 1) :=
  ⟨(injectTraceContext_spec spanC9 (.int 5) [] []).1 (by decide),
   (injectTraceContext_spec spanC9 (.int 5)
      [(asciiBytes "x", Value.int 1)] (asciiBytes "x")).2.2.2.1
     (by decide)⟩
